/-
Verification of the Résumé/Job Matching & Filtering Engine.

Shallow embedding of the core Python modules:
  app/job_scanner/filter.py        (JobFilter)
  app/job_scanner/linkedin.py      (LinkedInScanner._calculate_matching_score, fallback path)
  app/job_scanner/indeed.py        (IndeedScanner._calculate_matching_score, fallback path)
  app/resume_processor/skill_extractor.py (SkillExtractor)

Python strings are modelled as Lean `String` / `List Char` (ASCII-faithful);
Python floats are idealised as `ℚ` (every quantity the claims mention is a
ratio of small integers, where float and rational arithmetic agree);
Python `None`/missing dict keys are modelled with `Option`.
External libraries (NLTK tokenizer/lemmatizer/stop words, spaCy) are
universally quantified parameters, never stubbed to a fixed value.
-/
import Mathlib

namespace JobApp

/-! ## Shared Python-level primitives -/

/-- Membership in Python `string.punctuation`
(ASCII `!"#$%&'()*+,-./:;<=>?@[\]^_` etc.), given by ASCII code ranges
33–47, 58–64, 91–96, 123–126. -/
def isPunct (c : Char) : Bool :=
  let n := c.toNat
  (33 ≤ n && n ≤ 47) || (58 ≤ n && n ≤ 64) || (91 ≤ n && n ≤ 96) || (123 ≤ n && n ≤ 126)

/-- Python `str.lower()` (ASCII model): lower-case every character. -/
def pyLower (s : String) : String := String.mk (s.data.map Char.toLower)

/-- Helper for `pySplitWS`: accumulate the current token (reversed) while
scanning. -/
def splitWSAux : List Char → List Char → List String
  | acc, [] => if acc = [] then [] else [String.mk acc.reverse]
  | acc, c :: rest =>
    if c.isWhitespace then
      if acc = [] then splitWSAux [] rest
      else String.mk acc.reverse :: splitWSAux [] rest
    else splitWSAux (c :: acc) rest

/-- Python `str.split()` with no argument: split on whitespace runs,
dropping empty pieces. -/
def pySplitWS (s : String) : List String := splitWSAux [] s.data

/-- Python `str.strip()`: drop leading and trailing whitespace. -/
def pyStrip (s : String) : String :=
  String.mk (((s.data.dropWhile Char.isWhitespace).reverse.dropWhile Char.isWhitespace).reverse)

/-- Python `str.capitalize()`: first char upper-cased, the rest lower-cased
(ASCII model). -/
def pyCapitalize (w : String) : String :=
  match w.data with
  | [] => ""
  | c :: rest => String.mk (c.toUpper :: rest.map Char.toLower)

/-- Non-overlapping substring-occurrence count, Python `str.count`,
fuel-indexed by the remaining length (the fuel is always the length of the
scanned list, so the fuel never runs out).  `pat` is assumed nonempty, as at
every call site (Python counts `len+1` occurrences of `""`; this model is
never applied to an empty pattern). -/
def countSubstrAux (pat : List Char) : Nat → List Char → Nat
  | 0, _ => 0
  | _ + 1, [] => 0
  | n + 1, c :: rest =>
    if pat.isPrefixOf (c :: rest) then
      1 + countSubstrAux pat n (rest.drop (pat.length - 1))
    else
      countSubstrAux pat n rest

/-- Python `a.count(b)` for strings (non-overlapping occurrences). -/
def pyCount (pat s : String) : Nat := countSubstrAux pat.data s.data.length s.data

/-- Python `' '.join(words)`. -/
def joinWords : List String → String
  | [] => ""
  | [w] => w
  | w :: ws => w ++ " " ++ joinWords ws

/-- Python `pat in s` for strings: substring test. -/
def pyIn (pat : List Char) : List Char → Bool
  | [] => pat.isPrefixOf []
  | c :: rest => pat.isPrefixOf (c :: rest) || pyIn pat rest

/-! ## JobFilter (app/job_scanner/filter.py) -/

/-- The stop-word set of `JobFilter._extract_keywords_from_text`. -/
def filterStopWords : List String :=
  ["a", "an", "the", "and", "or", "but", "is", "are", "was", "were", "be", "been", "being",
   "in", "on", "at", "by", "for", "with", "about", "against", "between", "into", "through",
   "during", "before", "after", "above", "below", "to", "from", "up", "down", "of", "off",
   "over", "under", "again", "further", "then", "once", "here", "there", "when", "where",
   "why", "how", "all", "any", "both", "each", "few", "more", "most", "some", "such", "no",
   "nor", "not", "only", "own", "same", "so", "than", "too", "very", "s", "t", "can", "will",
   "just", "don", "should", "now", "i", "me", "my", "myself", "we", "our", "ours", "ourselves",
   "you", "your", "yours", "yourself", "yourselves", "he", "him", "his", "himself", "she",
   "her", "hers", "herself", "it", "its", "itself", "they", "them", "their", "theirs",
   "themselves", "what", "which", "who", "whom", "this", "that", "these", "those", "am",
   "have", "has", "had", "having", "do", "does", "did", "doing", "would", "could",
   "might", "must", "much", "many"]

/-- Helper for `counterKeys` (fuel = length of the list, never exhausted). -/
def counterKeysAux : Nat → List String → List String
  | 0, _ => []
  | _ + 1, [] => []
  | n + 1, x :: xs => x :: counterKeysAux n (xs.filter (fun y => y ≠ x))

/-- `collections.Counter` key order: first-occurrence order of the input list. -/
def counterKeys (l : List String) : List String := counterKeysAux l.length l

/-- Stable insertion keeping descending count order; an earlier element is
placed before any later element of equal count, matching the stable
descending sort performed by `Counter.most_common`. -/
def insertByCountDesc (cnt : String → Nat) (x : String) : List String → List String
  | [] => [x]
  | y :: ys => if cnt y ≤ cnt x then x :: y :: ys else y :: insertByCountDesc cnt x ys

/-- Stable sort by descending count (`Counter.most_common`). -/
def sortByCountDesc (cnt : String → Nat) (l : List String) : List String :=
  l.foldr (insertByCountDesc cnt) []

/-- `JobFilter._extract_keywords_from_text(text, max_keywords=30)`:
lowercase, strip punctuation, split on whitespace, drop stop words and
words of length ≤ 2, return the 30 most frequent words (most-common order,
ties by first occurrence). -/
def extract_keywords_from_text (text : String) : List String :=
  let lowered := pyLower text
  let noPunct := String.mk (lowered.data.filter (fun c => !(isPunct c)))
  let words := pySplitWS noPunct
  let filtered := words.filter (fun w => !(filterStopWords.contains w) && w.length > 2)
  let keys := counterKeys filtered
  (sortByCountDesc (fun w => filtered.count w) keys).take 30

/-- `JobFilter._calculate_keyword_match(keywords, job_description)`:
the fraction of résumé keywords that occur as substrings of the
lower-cased description; 0 when either input is empty. -/
def calculate_keyword_match (keywords : List String) (job_description : String) : ℚ :=
  if keywords = [] ∨ job_description = "" then 0
  else
    let jd := pyLower job_description
    let nMatches := (keywords.filter (fun k => pyIn k.data jd.data)).length
    (nMatches : ℚ) / (keywords.length : ℚ)

/-- Greedy `(?:,\d{3})*`: consume repeated groups of a comma followed by
exactly three digits; returns (consumed, rest). -/
def commaGroups : List Char → List Char × List Char
  | ',' :: a :: b :: c :: rest =>
    if a.isDigit && b.isDigit && c.isDigit then
      let (g, r) := commaGroups rest
      (',' :: a :: b :: c :: g, r)
    else ([], ',' :: a :: b :: c :: rest)
  | cs => ([], cs)

/-- Optional `(?:\.\d+)?`: a dot followed by at least one digit (greedy);
returns (consumed, rest). -/
def fracPart : List Char → List Char × List Char
  | '.' :: rest =>
    let ds := rest.takeWhile Char.isDigit
    if ds = [] then ([], '.' :: rest) else ('.' :: ds, rest.drop ds.length)
  | cs => ([], cs)

/-- The capture group `\d{1,3}(?:,\d{3})*(?:\.\d+)?` matched greedily at a
position whose head is a digit; returns (group, rest). -/
def salaryGroupFrom (cs : List Char) : List Char × List Char :=
  let ds := (cs.takeWhile Char.isDigit).take 3
  let rest := cs.drop ds.length
  let (commas, rest2) := commaGroups rest
  let (frac, rest3) := fracPart rest2
  (ds ++ commas ++ frac, rest3)

/-- One attempt of `\$?(\d{1,3}(?:,\d{3})*(?:\.\d+)?)` anchored at the
current position: an optional dollar sign, then the numeric group.
Returns the captured group and the remainder after the whole match. -/
def salaryMatchHere (cs : List Char) : Option (List Char × List Char) :=
  match cs with
  | '$' :: rest =>
    if rest.head?.elim false Char.isDigit then some (salaryGroupFrom rest)
    else if cs.head?.elim false Char.isDigit then some (salaryGroupFrom cs) else none
  | _ =>
    if cs.head?.elim false Char.isDigit then some (salaryGroupFrom cs) else none

/-- `re.findall` scan for the salary pattern: try each position left to
right, on a match continue after it (fuel = length of the scanned list,
which never runs out because every match consumes at least one char). -/
def findSalaryAux : Nat → List Char → List (List Char)
  | 0, _ => []
  | _ + 1, [] => []
  | n + 1, c :: rest =>
    match salaryMatchHere (c :: rest) with
    | some (grp, after) => grp :: findSalaryAux n after
    | none => findSalaryAux n rest

/-- `re.findall(r'\$?(\d{1,3}(?:,\d{3})*(?:\.\d+)?)', salary_text)`:
the list of captured digit groups. -/
def find_salary_numbers (s : String) : List (List Char) :=
  findSalaryAux s.data.length s.data

/-- Numeric value of a digit list (base 10). -/
def digitsVal (ds : List Char) : Nat :=
  ds.foldl (fun a c => 10 * a + (c.toNat - 48)) 0

/-- `float(num)` after `num.replace(',', '')`, for a string matched by the
salary group (digits with optional commas and an optional fraction). -/
def parse_salary_number (g : List Char) : ℚ :=
  let g2 := g.filter (fun c => c ≠ ',')
  let ip := g2.takeWhile (fun c => c ≠ '.')
  let rest := g2.drop ip.length
  match rest with
  | [] => (digitsVal ip : ℚ)
  | _ :: fp => (digitsVal ip : ℚ) + (digitsVal fp : ℚ) / ((10 : ℚ) ^ fp.length)

/-- The `extracted_salaries` list of `JobFilter._check_salary_match`: each
parsed figure, annualised by `* 40 * 52` when it is below 1000 (hourly-rate
heuristic). -/
def extracted_salaries (s : String) : List ℚ :=
  (find_salary_numbers s).map (fun g =>
    let v := parse_salary_number g
    if v < 1000 then v * 40 * 52 else v)

/-- `JobFilter._check_salary_match(salary_text)`: true when some extracted
(possibly annualised) figure meets the configured minimum. -/
def check_salary_match (minSalary : Int) (salaryText : String) : Bool :=
  if salaryText = "" then false
  else
    let nums := find_salary_numbers salaryText
    if nums = [] then false
    else
      let ex := extracted_salaries salaryText
      if ex = [] then false
      else ex.any (fun v => decide ((minSalary : ℚ) ≤ v))

/-- `JobFilter._check_location_match(job_location)`: a shared
city/state component after comma-to-space splitting, or a substring
relation either way, on the lower-cased strings. -/
def check_location_match (targetLocation jobLocation : String) : Bool :=
  if jobLocation = "" || targetLocation = "" then false
  else
    let jl := pyLower jobLocation
    let tl := pyLower targetLocation
    let jc := pySplitWS (String.mk (jl.data.map (fun c => if c = ',' then ' ' else c)))
    let tc := pySplitWS (String.mk (tl.data.map (fun c => if c = ',' then ' ' else c)))
    tc.any (fun comp => jc.contains comp) || pyIn tl.data jl.data || pyIn jl.data tl.data

/-- A job posting record (the dict consumed by `JobFilter.filter_jobs`).
`none` models an absent key; `some ""` a present-but-falsy value. -/
structure Job where
  id : Option String := none
  title : Option String := none
  company : Option String := none
  location : Option String := none
  description : Option String := none
  salary : Option String := none
  url : Option String := none
  source : Option String := none
  date_found : Option String := none
  status : Option String := none
  matching_score : Option Int := none
  filter_match_score : Option Nat := none
  filter_match_reasons : Option (List String) := none
deriving Repr, DecidableEq

/-- Python truthy presence test `'k' in job and job['k']` for a string field. -/
def present (f : Option String) : Bool :=
  match f with
  | some s => s != ""
  | none => false

/-- The filter's configuration (`TARGET_PAY_GRADE_MIN`, `TARGET_LOCATION`)
as read at construction. -/
structure JobFilter where
  min_salary : Int
  target_location : String
deriving Repr, DecidableEq

/-- Python `int(s)` on a string: optional surrounding whitespace, optional
sign, then at least one digit (the underscore-separator extension is not
modelled; no claim depends on it). `none` models `ValueError`. -/
def py_int_of_string (s : String) : Option Int :=
  let cs := (pyStrip s).data
  match cs with
  | '-' :: ds => if ds ≠ [] ∧ ds.all Char.isDigit then some (-(digitsVal ds : Int)) else none
  | '+' :: ds => if ds ≠ [] ∧ ds.all Char.isDigit then some (digitsVal ds : Int) else none
  | ds => if ds ≠ [] ∧ ds.all Char.isDigit then some (digitsVal ds : Int) else none

/-- `JobFilter.__init__`: `min_salary = int(config.get('TARGET_PAY_GRADE_MIN',
'70000'))`; a `ValueError` from `int` aborts construction (`none`).
`envPayMin`/`envLocation` are the environment-supplied configuration values. -/
def mk_job_filter (envPayMin envLocation : Option String) : Option JobFilter :=
  match py_int_of_string (envPayMin.getD "70000") with
  | some n => some ⟨n, envLocation.getD "New York, NY"⟩
  | none => none

/-- The keyword-match reason string
`f"Keyword match: {int(keyword_score * 100)}%"`. -/
def keyword_reason (ks : ℚ) : String :=
  "Keyword match: " ++ toString (⌊ks * 100⌋.toNat) ++ "%"

/-- `JobFilter.filter_jobs(jobs, resume_text)`: award one point each for
keyword overlap (> 0.2), salary floor, and location; keep a posting when it
scores at least 2 points or its keyword score alone exceeds 0.5, annotating
it with `filter_match_score` and `filter_match_reasons`. -/
def filter_jobs (F : JobFilter) (jobs : List Job) (resumeText : String) : List Job :=
  if jobs = [] then []
  else
    let resumeKeywords := extract_keywords_from_text resumeText
    jobs.filterMap (fun job =>
      let kwOk : Bool := present job.description &&
        decide ((1 : ℚ)/5 < calculate_keyword_match resumeKeywords (job.description.getD ""))
      let salOk : Bool := present job.salary &&
        check_salary_match F.min_salary (job.salary.getD "")
      let locOk : Bool := present job.location &&
        check_location_match F.target_location (job.location.getD "")
      let match_score := (cond kwOk 1 0) + (cond salOk 1 0) + (cond locOk 1 0)
      let match_reasons :=
        (cond kwOk [keyword_reason (calculate_keyword_match resumeKeywords (job.description.getD ""))] []) ++
        (cond salOk ["Salary meets minimum requirement"] []) ++
        (cond locOk ["Location match"] [])
      if match_score ≥ 2 ||
         (present job.description &&
          decide ((1 : ℚ)/2 < calculate_keyword_match resumeKeywords (job.description.getD "")))
      then some { job with filter_match_score := some match_score,
                           filter_match_reasons := some match_reasons }
      else none)

/-- The keyword criterion point of `filter_jobs`: a present, truthy
description whose keyword score exceeds 0.2. -/
def keyword_point (kws : List String) (job : Job) : Bool :=
  present job.description &&
    decide ((1 : ℚ)/5 < calculate_keyword_match kws (job.description.getD ""))

/-- The salary criterion point of `filter_jobs`: a present, truthy salary
meeting the configured floor. -/
def salary_point (F : JobFilter) (job : Job) : Bool :=
  present job.salary && check_salary_match F.min_salary (job.salary.getD "")

/-- The location criterion point of `filter_jobs`: a present, truthy
location matching the target. -/
def location_point (F : JobFilter) (job : Job) : Bool :=
  present job.location && check_location_match F.target_location (job.location.getD "")

/-- The number of the three acceptance criteria a posting meets. -/
def criterion_points (F : JobFilter) (kws : List String) (job : Job) : Nat :=
  (cond (keyword_point kws job) 1 0) + (cond (salary_point F job) 1 0) +
    (cond (location_point F job) 1 0)

/-- The strong-match override of `filter_jobs`: a present, truthy
description whose keyword score exceeds 0.5. -/
def strong_keyword_override (kws : List String) (job : Job) : Bool :=
  present job.description &&
    decide ((1 : ℚ)/2 < calculate_keyword_match kws (job.description.getD ""))

/-- The annotation `filter_jobs` attaches to a surviving posting. -/
def annotate_job (F : JobFilter) (kws : List String) (job : Job) : Job :=
  { job with
    filter_match_score := some (criterion_points F kws job),
    filter_match_reasons := some (
      (cond (keyword_point kws job)
        [keyword_reason (calculate_keyword_match kws (job.description.getD ""))] []) ++
      (cond (salary_point F job) ["Salary meets minimum requirement"] []) ++
      (cond (location_point F job) ["Location match"] [])) }

/-- The keyword score exactly as the claim words it: the size of the
intersection of the résumé keyword set with the set of whitespace-separated
words of the lower-cased description, divided by the number of résumé
keywords. Spec-side definition used to compare against
`calculate_keyword_match`. -/
def spec_word_overlap_score (keywords : List String) (job_description : String) : ℚ :=
  ((keywords.filter (fun k => (pySplitWS (pyLower job_description)).contains k)).length : ℚ) /
    (keywords.length : ℚ)

/-! ## Scanner fallback scorers (linkedin.py / indeed.py) -/

/-- The seniority phrase table shared by both scanners. -/
def experience_terms : List (String × Int) :=
  [("senior", -5), ("lead", -5), ("principal", -10), ("manager", -5), ("director", -10),
   ("5+ years", -5), ("7+ years", -10), ("10+ years", -15),
   ("entry level", 10), ("junior", 10), ("associate", 5), ("intern", 5),
   ("1-2 years", 10), ("no experience", 15)]

/-- `LinkedInScanner._calculate_matching_score` (basic fallback path): 15 per
keyword in the lower-cased title, `min(count*3, 15)` per keyword over the
description, the seniority deltas, a LinkedIn-specific +10 when the
description mentions "easy apply", clamped to [0, 100]. -/
def linkedin_calculate_matching_score (title description keywords : String) : Int :=
  let keywords_list := pySplitWS (pyLower keywords)
  let title_lower := pyLower title
  let titleScore : Int := 15 * ((keywords_list.filter (fun k => pyIn k.data title_lower.data)).length : Int)
  let description_lower := pyLower description
  let descScore : Int := (keywords_list.map (fun k => min ((pyCount k description_lower : Int) * 3) 15)).sum
  let expScore : Int := ((experience_terms.filter (fun t => pyIn t.1.data description_lower.data)).map Prod.snd).sum
  let easyApply : Int := if pyIn "easy apply".data description_lower.data then 10 else 0
  max 0 (min (titleScore + descScore + expScore + easyApply) 100)

/-- `IndeedScanner._calculate_matching_score` (basic fallback path): identical
to the LinkedIn scorer except that it has no "easy apply" boost. -/
def indeed_calculate_matching_score (title description keywords : String) : Int :=
  let keywords_list := pySplitWS (pyLower keywords)
  let title_lower := pyLower title
  let titleScore : Int := 15 * ((keywords_list.filter (fun k => pyIn k.data title_lower.data)).length : Int)
  let description_lower := pyLower description
  let descScore : Int := (keywords_list.map (fun k => min ((pyCount k description_lower : Int) * 3) 15)).sum
  let expScore : Int := ((experience_terms.filter (fun t => pyIn t.1.data description_lower.data)).map Prod.snd).sum
  max 0 (min (titleScore + descScore + expScore) 100)

/-- The KeywordMatcher contract exactly as the spec words it (split the
keywords on whitespace; +15 per keyword present in the lower-cased title;
per keyword `min(count*3, 15)` over the lower-cased description; the
seniority phrase table; clamp to [0, 100]). Spec-side definition used to
compare against the two scanner implementations. -/
def spec_keyword_matcher_score (title description keywords : String) : Int :=
  let kws := pySplitWS (pyLower keywords)
  let base := kws.foldl (fun s k => s + (if pyIn k.data (pyLower title).data then 15 else 0)) 0
  let withDesc := kws.foldl (fun s k => s + min (3 * (pyCount k (pyLower description) : Int)) 15) base
  let withExp := experience_terms.foldl
    (fun s t => s + (if pyIn t.1.data (pyLower description).data then t.2 else 0)) withDesc
  max 0 (min withExp 100)

/-! ## SkillExtractor (app/resume_processor/skill_extractor.py)

The extractor builds regexes `r'\b' + pattern + r'\b'` whose bodies contain
only literal characters, backslash escapes and the `.` metacharacter, so a
small regex engine over exactly those constructs embeds `re.search` and
`re.findall` faithfully for every pattern the extractor can produce. -/

/-- A regex `\w` word character (ASCII model of Python `re`). -/
def wordCharB (c : Char) : Bool := c.isAlphanum || c = '_'

def optWord : Option Char → Bool
  | some c => wordCharB c
  | none => false

/-- The `\b` zero-width test between two neighbouring characters
(`none` = outside the string). -/
def boundaryB (a b : Option Char) : Bool := optWord a != optWord b

/-- A compiled regex token: a literal character or the `.` metacharacter. -/
inductive RTok where
  | lit (c : Char)
  | anyChar
deriving Repr, DecidableEq

/-- Compile a pattern body: `\x` is the literal `x`, `.` matches any
character but a newline, everything else is literal (the only regex
constructs occurring in skill patterns). -/
def compilePattern : List Char → List RTok
  | [] => []
  | [c] => if c = '.' then [RTok.anyChar] else [RTok.lit c]
  | c :: d :: rest =>
    if c = '\\' then RTok.lit d :: compilePattern rest
    else if c = '.' then RTok.anyChar :: compilePattern (d :: rest)
    else RTok.lit c :: compilePattern (d :: rest)

/-- `pattern.replace('\\\\', '\\')` of `_extract_skills_with_patterns`. -/
def replaceDoubleBackslash : List Char → List Char
  | [] => []
  | [c] => [c]
  | c :: d :: rest =>
    if c = '\\' ∧ d = '\\' then '\\' :: replaceDoubleBackslash rest
    else c :: replaceDoubleBackslash (d :: rest)

/-- `skill.lower().replace('+', '\\+')` of `_calculate_skill_frequencies`
(applied to the already lower-cased data). -/
def escapePlus : List Char → List Char
  | [] => []
  | c :: rest => if c = '+' then '\\' :: '+' :: escapePlus rest else c :: escapePlus rest

/-- Match the token list against a prefix of `s`; returns the consumed
characters and the remainder. -/
def matchToks : List RTok → List Char → Option (List Char × List Char)
  | [], s => some ([], s)
  | _ :: _, [] => none
  | RTok.lit c :: ts, x :: xs =>
    if x = c then (matchToks ts xs).map (fun pr => (x :: pr.1, pr.2)) else none
  | RTok.anyChar :: ts, x :: xs =>
    if x = '\n' then none else (matchToks ts xs).map (fun pr => (x :: pr.1, pr.2))

/-- Does `\b toks \b` match at the current position, whose preceding
character is `prev`? -/
def matchHere (toks : List RTok) (prev : Option Char) (s : List Char) : Bool :=
  boundaryB prev s.head? &&
    match matchToks toks s with
    | some (consumed, rest) =>
      (match consumed.getLast? with
       | some c => boundaryB (some c) rest.head?
       | none => boundaryB prev rest.head?)
    | none => false

/-- `re.search(r'\b' + pat + r'\b', s)`: try every position left to right. -/
def rsearchAux (toks : List RTok) : Option Char → List Char → Bool
  | prev, [] => matchHere toks prev []
  | prev, c :: rest => matchHere toks prev (c :: rest) || rsearchAux toks (some c) rest

/-- `re.search(r'\b' + search_pattern + r'\b', text)` with the
`'\\\\' → '\\'` preprocessing of `_extract_skills_with_patterns`. -/
def re_search_wb (pattern : String) (s : String) : Bool :=
  rsearchAux (compilePattern (replaceDoubleBackslash pattern.data)) none s.data

/-- `len(re.findall(r'\b' + p + r'\b', s))`: non-overlapping matches,
scanning left to right and resuming after each match.  Fuel-indexed by the
remaining length (never exhausted when started with the list's length). -/
def rcountAux (toks : List RTok) : Nat → Option Char → List Char → Nat
  | 0, _, _ => 0
  | _ + 1, prev, [] => if matchHere toks prev [] then 1 else 0
  | n + 1, prev, c :: rest =>
    if boundaryB prev (some c) then
      match matchToks toks (c :: rest) with
      | some (consumed, after) =>
        let endOk := match consumed.getLast? with
          | some lc => boundaryB (some lc) after.head?
          | none => boundaryB prev (some c)
        if endOk then
          match consumed.getLast? with
          | some lc => 1 + rcountAux toks n (some lc) after
          | none => 1 + rcountAux toks n (some c) rest
        else rcountAux toks n (some c) rest
      | none => rcountAux toks n (some c) rest
    else rcountAux toks n (some c) rest

/-- Occurrence count of one skill in the preprocessed text
(`_calculate_skill_frequencies` body for a single skill). -/
def skill_frequency (skill : String) (preprocessedText : String) : Nat :=
  rcountAux (compilePattern (escapePlus (pyLower skill).data))
    preprocessedText.data.length none preprocessedText.data

/-- The built-in default taxonomy of `SkillExtractor._load_skill_patterns`
(the configurable JSON override file is absent from the repository, so this
is the loaded taxonomy). -/
def default_skill_patterns : List (String × List String) :=
  [("programming_languages",
    ["python", "java", "javascript", "typescript", "c\\+\\+", "c#", "ruby",
     "php", "go", "rust", "swift", "kotlin", "scala", "perl", "r", "dart"]),
   ("frameworks_libraries",
    ["react", "angular", "vue", "node.js", "express", "django", "flask",
     "spring", "asp.net", "laravel", "symfony", "rails", "flutter",
     "tensorflow", "pytorch", "keras", "scikit-learn", "jquery", "bootstrap"]),
   ("databases",
    ["sql", "mysql", "postgresql", "mongodb", "sqlite", "oracle", "redis",
     "cassandra", "dynamodb", "firestore", "elasticsearch", "neo4j"]),
   ("cloud_devops",
    ["aws", "azure", "gcp", "docker", "kubernetes", "jenkins", "terraform",
     "ansible", "ci/cd", "git", "github", "gitlab", "bitbucket", "aws lambda",
     "serverless", "microservices", "cloud computing"]),
   ("software_tools",
    ["jira", "confluence", "trello", "slack", "figma", "sketch", "adobe",
     "photoshop", "illustrator", "xd", "zeplin", "tableau", "power bi",
     "excel", "powerpoint", "word", "linux", "unix", "windows", "macos"]),
   ("methodologies",
    ["agile", "scrum", "kanban", "waterfall", "lean", "test-driven development",
     "behavior-driven development", "devops", "continuous integration",
     "continuous deployment", "continuous delivery", "pair programming"]),
   ("machine_learning",
    ["machine learning", "deep learning", "artificial intelligence", "ai",
     "natural language processing", "nlp", "computer vision", "neural networks",
     "data mining", "predictive modeling", "reinforcement learning",
     "supervised learning", "unsupervised learning", "classification",
     "regression", "clustering"]),
   ("soft_skills",
    ["communication", "teamwork", "problem solving", "leadership", "time management",
     "critical thinking", "adaptability", "collaboration", "presentation",
     "negotiation", "conflict resolution", "emotional intelligence"])]

/-- `SkillExtractor._format_skill_name`: the documented special cases,
otherwise each whitespace-separated word capitalised. -/
def format_skill_name (skill_pattern : String) : String :=
  if skill_pattern = "python" then "Python"
  else if skill_pattern = "javascript" then "JavaScript"
  else if skill_pattern = "typescript" then "TypeScript"
  else if skill_pattern = "c\\+\\+" then "C++"
  else if skill_pattern = "c#" then "C#"
  else if skill_pattern = "node.js" then "Node.js"
  else if skill_pattern = "asp.net" then "ASP.NET"
  else if skill_pattern = "ci/cd" then "CI/CD"
  else joinWords ((pySplitWS skill_pattern).map pyCapitalize)

/-- `SkillExtractor._preprocess_text`, parameterised over the external NLTK
collaborators: `wordTokenize` (`nltk.word_tokenize`), `lemmatize`
(`WordNetLemmatizer().lemmatize`) and `stopWords`
(`stopwords.words('english')`). Lower-case, tokenize, strip punctuation from
each token, drop empty tokens and stop words, lemmatize, re-join with
single spaces. -/
def preprocess_text (wordTokenize : String → List String) (lemmatize : String → String)
    (stopWords : List String) (text : String) : String :=
  let tokens := wordTokenize (pyLower text)
  let processed := tokens.foldr (fun tok acc =>
    let t := String.mk (tok.data.filter (fun c => !(isPunct c)))
    if t ≠ "" ∧ ¬ (t ∈ stopWords) then lemmatize t :: acc else acc) []
  joinWords processed

/-- `SkillExtractor._extract_skills_with_patterns`: for each category, the
display names of its patterns found (word-bounded) in the preprocessed
text; categories with no match are absent. -/
def extract_skills_with_patterns (patterns : List (String × List String))
    (preprocessedText : String) : List (String × List String) :=
  patterns.filterMap (fun cp =>
    let category_skills := (cp.2.filter (fun p => re_search_wb p preprocessedText)).map format_skill_name
    if category_skills = [] then none else some (cp.1, category_skills))

/-- First-match association lookup (`dict[k]` on the insertion-ordered
model of a Python dict). -/
def assocFind {α : Type} (k : String) : List (String × α) → Option α
  | [] => none
  | kv :: rest => if kv.1 = k then some kv.2 else assocFind k rest

/-- In-place update of an existing key (`dict[k] = v`). -/
def setAssoc {α : Type} (l : List (String × α)) (k : String) (v : α) : List (String × α) :=
  l.map (fun kv => if kv.1 = k then (k, v) else kv)

/-- The merge loop of `extract_skills` over the spaCy result:
`skills[category] = list(set(skills[category] + category_skills))` for an
existing key, otherwise a new key.  `list(set(...))` produces the distinct
elements in an unspecified order; `List.dedup` is its membership- and
cardinality-faithful model. -/
def merge_spacy_skills (skills spacySkills : List (String × List String)) :
    List (String × List String) :=
  spacySkills.foldl (fun acc cs =>
    match assocFind cs.1 acc with
    | some existing => setAssoc acc cs.1 (List.dedup (existing ++ cs.2))
    | none => acc ++ [cs]) skills

/-- The dict returned by `SkillExtractor.extract_skills`; `none` fields model
absent keys (the bare `{}` returned for empty input has all three absent). -/
structure SkillResult where
  skill_categories : Option (List (String × List String)) := none
  all_skills : Option (List String) := none
  skill_frequencies : Option (List (String × Nat)) := none
deriving Repr, DecidableEq

/-- `SkillExtractor._calculate_skill_frequencies`: one entry per discovered
skill, counting its word-bounded occurrences in the preprocessed text. -/
def calculate_skill_frequencies (skills : List (String × List String))
    (preprocessedText : String) : List (String × Nat) :=
  ((skills.map Prod.snd).flatten).map (fun skill => (skill, skill_frequency skill preprocessedText))

/-- `SkillExtractor.extract_skills`, parameterised over the NLTK
collaborators and the optional spaCy pass (`spacyResult = none` models the
`nlp is None` fallback; `some sp` models `_extract_skills_with_spacy`
returning `sp`). Empty input short-circuits to the bare empty dict. -/
def extract_skills (wordTokenize : String → List String) (lemmatize : String → String)
    (stopWords : List String) (spacyResult : Option (List (String × List String)))
    (skill_patterns : List (String × List String)) (text : String) : SkillResult :=
  if text = "" then {}
  else
    let preprocessedText := preprocess_text wordTokenize lemmatize stopWords text
    let patternSkills := extract_skills_with_patterns skill_patterns preprocessedText
    let skills := match spacyResult with
      | none => patternSkills
      | some sp => merge_spacy_skills patternSkills sp
    { skill_categories := some skills,
      all_skills := some ((skills.map Prod.snd).flatten),
      skill_frequencies := some (calculate_skill_frequencies skills preprocessedText) }

/-- Round half to even (Python `round` on our rational idealisation of
floats). -/
def roundHalfEven (x : ℚ) : ℤ :=
  let f := ⌊x⌋
  let r := x - (f : ℚ)
  if r < 1/2 then f
  else if 1/2 < r then f + 1
  else if f % 2 = 0 then f else f + 1

/-- Python `round(x, 2)`. -/
def pyRound2 (x : ℚ) : ℚ := (roundHalfEven (x * 100) : ℚ) / 100

/-- One per-category entry of `compare_skills`. -/
structure CategoryComparison where
  matching : List String
  missing : List String
  match_percentage : ℚ
deriving Repr, DecidableEq

/-- The comparison dict returned by `compare_skills`. -/
structure SkillComparison where
  matching_skills : List String
  missing_skills : List String
  match_percentage : ℚ
  categories : List (String × CategoryComparison)
deriving Repr, DecidableEq

/-- `SkillExtractor.compare_skills(resume_skills, job_skills)`: matching and
missing skills, overall percentage relative to the job's skills, and
per-category breakdowns over the de-duplicated (`set(...)`) category skill
lists. -/
def compare_skills (resume_skills job_skills : SkillResult) : SkillComparison :=
  let resume_all_skills := resume_skills.all_skills.getD []
  let job_all_skills := job_skills.all_skills.getD []
  let matching_skills := resume_all_skills.filter (fun skill => decide (skill ∈ job_all_skills))
  let missing_skills := job_all_skills.filter (fun skill => decide (skill ∉ resume_all_skills))
  let match_percentage : ℚ :=
    if job_all_skills ≠ [] then ((matching_skills.length : ℚ) / (job_all_skills.length : ℚ)) * 100
    else 0
  let resume_categories := resume_skills.skill_categories.getD []
  let job_categories := job_skills.skill_categories.getD []
  let all_categories := List.dedup (resume_categories.map Prod.fst ++ job_categories.map Prod.fst)
  let categories := all_categories.map (fun category =>
    let resume_category_skills := List.dedup ((assocFind category resume_categories).getD [])
    let job_category_skills := List.dedup ((assocFind category job_categories).getD [])
    let category_matching := resume_category_skills.filter (fun s => decide (s ∈ job_category_skills))
    let category_missing := job_category_skills.filter (fun s => decide (s ∉ resume_category_skills))
    let category_match_percentage : ℚ :=
      if job_category_skills ≠ [] then
        ((category_matching.length : ℚ) / (job_category_skills.length : ℚ)) * 100
      else 0
    (category, (⟨category_matching, category_missing, pyRound2 category_match_percentage⟩ : CategoryComparison)))
  ⟨matching_skills, missing_skills, pyRound2 match_percentage, categories⟩

/-- Literal occurrence of `pat` in `s` delimited by `\b` word boundaries on
both sides (the property quantified over in the pattern-completeness
claim). -/
def occursWB (pat s : List Char) : Prop :=
  ∃ t u, s = t ++ pat ++ u ∧
    boundaryB t.getLast? (pat ++ u).head? = true ∧
    (match pat.getLast? with
     | some c => boundaryB (some c) u.head?
     | none => boundaryB t.getLast? u.head?) = true

/-! ## Supporting lemmas -/

theorem check_salary_match_eq_any (m : Int) (s : String) :
    check_salary_match m s = (extracted_salaries s).any (fun v => decide ((m : ℚ) ≤ v)) := by
  unfold check_salary_match extracted_salaries
  by_cases h1 : s = ""
  · subst h1; rfl
  · rw [if_neg h1]
    by_cases h2 : find_salary_numbers s = []
    · rw [if_pos h2, h2]; rfl
    · rw [if_neg h2, if_neg (by simpa using h2)]

theorem takeWhile_eq_self_of_forall {p : Char → Bool} :
    ∀ l : List Char, (∀ c ∈ l, p c = true) → l.takeWhile p = l := by
  intro l h
  induction l with
  | nil => rfl
  | cons c rest ih =>
    rw [List.takeWhile_cons, h c (List.mem_cons_self c rest),
      ih (fun x hx => h x (List.mem_cons_of_mem c hx))]
    simp

/-- A salary group without a decimal point parses to its digit value. -/
theorem parse_salary_number_int (g : List Char)
    (h : ∀ c ∈ g.filter (fun c => c ≠ ','), (c != '.') = true) :
    parse_salary_number g = ((digitsVal (g.filter (fun c => c ≠ ','))) : ℚ) := by
  simp only [parse_salary_number]
  rw [takeWhile_eq_self_of_forall _ (by simpa using h), List.drop_length]

/-! ## Claim C6: salary parsing and the salary criterion -/

/-- C6 (confirmed). `_check_salary_match` awards the salary point exactly
when some figure parsed from the salary text — digits with optional `$` and
commas, annualised by `*40*52` when below 1000 — meets the configured
minimum; in particular `"$45,000"` parses to 45000 and `"$22/hr"` to
`22*40*52 = 45760`. -/
theorem salary_match_spec (m : Int) (s : String) :
    (check_salary_match m s = true ↔ ∃ v ∈ extracted_salaries s, (m : ℚ) ≤ v) ∧
    extracted_salaries "$45,000" = [45000] ∧
    extracted_salaries "$22/hr" = [22 * 40 * 52] ∧
    (22 * 40 * 52 : ℚ) = 45760 := by
  refine ⟨?_, ?_, ?_, by norm_num⟩
  · rw [check_salary_match_eq_any]
    simp [List.any_eq_true]
  · have h : find_salary_numbers "$45,000" = ["45,000".data] := by decide
    have hp : parse_salary_number "45,000".data = ((45000 : Nat) : ℚ) := by
      rw [parse_salary_number_int _ (by decide)]; decide
    simp only [extracted_salaries, h, List.map_cons, List.map_nil, hp]
    rw [if_neg (by decide)]
    decide
  · have h : find_salary_numbers "$22/hr" = ["22".data] := by decide
    have hp : parse_salary_number "22".data = ((22 : Nat) : ℚ) := by
      rw [parse_salary_number_int _ (by decide)]; decide
    simp only [extracted_salaries, h, List.map_cons, List.map_nil, hp]
    rw [if_pos (by decide), show ((22 : Nat) : ℚ) = 22 from by decide]

/-! ## Claim C8: JobFilter construction -/

/-- C8 (counterexample). A negative configured salary floor does NOT make
`JobFilter` construction fail: with `TARGET_PAY_GRADE_MIN = "-1"` the
filter is built with `min_salary = -1`. -/
theorem mk_job_filter_accepts_negative_floor :
    mk_job_filter (some "-1") none = some ⟨-1, "New York, NY"⟩ ∧ (-1 : Int) < 0 := by
  exact ⟨by decide, by decide⟩

/-- C8 (amended). `JobFilter` construction fails exactly when the configured
salary floor is not a valid (Python `int`) integer literal; any parsed
integer — negative ones included — is accepted as `min_salary`. -/
theorem mk_job_filter_fails_iff_non_numeric (env : String) (loc : Option String) :
    (mk_job_filter (some env) loc = none ↔ py_int_of_string env = none) ∧
    (∀ n : Int, py_int_of_string env = some n →
      mk_job_filter (some env) loc = some ⟨n, loc.getD "New York, NY"⟩) := by
  unfold mk_job_filter
  constructor
  · cases h : py_int_of_string ((some env).getD "70000") <;> simp_all
  · intro n h
    simp only [Option.getD_some, h]

/-- Witness for `mk_job_filter_fails_iff_non_numeric`. -/
theorem mk_job_filter_fails_iff_non_numeric_witness :
    mk_job_filter (some "abc") none = none ∧
    mk_job_filter (some "70000") none = some ⟨70000, "New York, NY"⟩ :=
  ⟨(mk_job_filter_fails_iff_non_numeric "abc" none).1.mpr (by decide),
   (mk_job_filter_fails_iff_non_numeric "70000" none).2 70000 (by decide)⟩

/-! ## Claim C5: the keyword score -/

/-- C5 (counterexample). The keyword score is NOT the word-set intersection
the claim describes: the keyword `"java"` scores 1 against the description
`"JavaScript"` (substring containment), while no word of the description
equals `"java"`. -/
theorem keyword_match_not_word_intersection :
    calculate_keyword_match ["java"] "JavaScript" = 1 ∧
    spec_word_overlap_score ["java"] "JavaScript" = 0 ∧
    calculate_keyword_match ["java"] "JavaScript" ≠
      spec_word_overlap_score ["java"] "JavaScript" := by
  have h1 : calculate_keyword_match ["java"] "JavaScript" = 1 := by
    simp only [calculate_keyword_match]
    rw [if_neg (by simp)]
    rw [show (["java"].filter (fun k => pyIn k.data (pyLower "JavaScript").data)).length = 1
      from by decide]
    norm_num
  have h2 : spec_word_overlap_score ["java"] "JavaScript" = 0 := by
    simp only [spec_word_overlap_score]
    rw [show (["java"].filter (fun k => (pySplitWS (pyLower "JavaScript")).contains k)).length = 0
      from by decide]
    norm_num
  exact ⟨h1, h2, by rw [h1, h2]; norm_num⟩

/-- C5 (amended). For a non-empty keyword list and non-empty description,
the keyword score is the number of résumé keywords occurring as substrings
of the lower-cased description divided by the number of keywords, and the
keyword criterion point is awarded exactly when this score exceeds 0.2. -/
theorem keyword_match_substring_spec (keywords : List String) (d : String)
    (hk : keywords ≠ []) (hd : d ≠ "") :
    calculate_keyword_match keywords d =
      ((keywords.countP (fun k => pyIn k.data (pyLower d).data) : ℚ) / (keywords.length : ℚ)) ∧
    (∀ job : Job, job.description = some d →
      (keyword_point keywords job = true ↔
        (1 : ℚ)/5 < calculate_keyword_match keywords d)) := by
  constructor
  · unfold calculate_keyword_match
    rw [if_neg (by simp [hk, hd])]
    rw [List.countP_eq_length_filter]
  · intro job hdesc
    unfold keyword_point present
    rw [hdesc]
    simp [hd]

/-- Witness for `keyword_match_substring_spec`. -/
theorem keyword_match_substring_spec_witness :
    calculate_keyword_match ["python"] "python" =
      (((["python"] : List String).countP (fun k => pyIn k.data (pyLower "python").data) : ℚ) /
        ((["python"] : List String).length : ℚ)) ∧
    (keyword_point ["python"] ({ description := some "python" } : Job) = true ↔
      (1 : ℚ)/5 < calculate_keyword_match ["python"] "python") :=
  ⟨(keyword_match_substring_spec ["python"] "python" (by decide) (by decide)).1,
   (keyword_match_substring_spec ["python"] "python" (by decide) (by decide)).2 _ rfl⟩

/-! ## Claim C7: the fallback keyword-matching score -/

theorem foldl_add_map_sum {α : Type} (l : List α) (f : α → Int) (s : Int) :
    l.foldl (fun a x => a + f x) s = s + (l.map f).sum := by
  induction l generalizing s with
  | nil => simp
  | cons x xs ih => simp [ih, add_assoc]

theorem sum_map_ite_const (l : List String) (p : String → Bool) (k : Int) :
    (l.map (fun x => if p x then k else 0)).sum = k * ((l.filter p).length : Int) := by
  induction l with
  | nil => simp
  | cons x xs ih =>
    by_cases h : p x = true
    · simp [h, ih, mul_add, add_comm]
    · simp [h, ih]

theorem sum_filter_map_snd (l : List (String × Int)) (p : String × Int → Bool) :
    ((l.filter p).map Prod.snd).sum =
      (l.map (fun t => if p t then t.2 else 0)).sum := by
  induction l with
  | nil => simp
  | cons x xs ih =>
    by_cases h : p x = true
    · simp [h, ih]
    · simp [h, ih]

/-- C7 (counterexample). The LinkedIn fallback scorer is NOT the clamp of
the described keyword/seniority computation: on title `""`, description
`"easy apply"`, keywords `""` the claimed formula yields 0 but the LinkedIn
scorer yields 10 (its LinkedIn-specific "easy apply" boost). -/
theorem linkedin_score_easy_apply_boost :
    linkedin_calculate_matching_score "" "easy apply" "" = 10 ∧
    spec_keyword_matcher_score "" "easy apply" "" = 0 ∧
    linkedin_calculate_matching_score "" "easy apply" "" ≠
      spec_keyword_matcher_score "" "easy apply" "" := by
  exact ⟨by decide, by decide, by decide⟩

/-- C7 (amended). Both fallback scorers return an integer in [0, 100]; the
Indeed scorer computes exactly the claimed formula (15 per keyword in the
lower-cased title, `min(count*3, 15)` per keyword over the description, the
seniority phrase deltas, clamped); the LinkedIn scorer computes the same
except for an additional +10 when the description mentions "easy apply"
(before clamping), and agrees with the formula whenever the description
does not. -/
theorem matching_score_spec (title description keywords : String) :
    indeed_calculate_matching_score title description keywords =
      spec_keyword_matcher_score title description keywords ∧
    0 ≤ indeed_calculate_matching_score title description keywords ∧
    indeed_calculate_matching_score title description keywords ≤ 100 ∧
    0 ≤ linkedin_calculate_matching_score title description keywords ∧
    linkedin_calculate_matching_score title description keywords ≤ 100 ∧
    (pyIn "easy apply".data (pyLower description).data = false →
      linkedin_calculate_matching_score title description keywords =
        spec_keyword_matcher_score title description keywords) := by
  have hlb : ∀ x : Int, 0 ≤ max 0 (min x 100) := fun x => le_max_left 0 _
  have hub : ∀ x : Int, max 0 (min x 100) ≤ 100 :=
    fun x => max_le (by norm_num) (min_le_right x 100)
  have heq : indeed_calculate_matching_score title description keywords =
      spec_keyword_matcher_score title description keywords := by
    simp only [indeed_calculate_matching_score, spec_keyword_matcher_score,
      foldl_add_map_sum, sum_map_ite_const, sum_filter_map_snd, zero_add, mul_comm]
  have hnb : pyIn "easy apply".data (pyLower description).data = false →
      linkedin_calculate_matching_score title description keywords =
        indeed_calculate_matching_score title description keywords := by
    intro h
    simp only [linkedin_calculate_matching_score, indeed_calculate_matching_score, h,
      Bool.false_eq_true, if_false, add_zero, ite_false]
  refine ⟨heq, ?_, ?_, ?_, ?_, fun h => (hnb h).trans heq⟩
  · simp only [indeed_calculate_matching_score]; exact hlb _
  · simp only [indeed_calculate_matching_score]; exact hub _
  · simp only [linkedin_calculate_matching_score]; exact hlb _
  · simp only [linkedin_calculate_matching_score]; exact hub _

/-- Witness for `matching_score_spec`. -/
theorem matching_score_spec_witness :
    linkedin_calculate_matching_score "dev" "backend job" "dev" =
      spec_keyword_matcher_score "dev" "backend job" "dev" :=
  (matching_score_spec "dev" "backend job" "dev").2.2.2.2.2 (by decide)

/-! ## Claim C3: the acceptance policy of filter_jobs -/

/-- C3 (confirmed). `filter_jobs` keeps exactly the postings that earn at
least 2 of the 3 criterion points (keyword overlap above 0.2, salary floor
met, location match) or whose keyword score alone exceeds 0.5 (strong-match
override); each survivor is annotated, and nothing else appears in the
output. -/
theorem filter_jobs_acceptance (F : JobFilter) (jobs : List Job) (resumeText : String) :
    filter_jobs F jobs resumeText =
      jobs.filterMap (fun job =>
        if 2 ≤ criterion_points F (extract_keywords_from_text resumeText) job
           ∨ strong_keyword_override (extract_keywords_from_text resumeText) job = true
        then some (annotate_job F (extract_keywords_from_text resumeText) job)
        else none) := by
  unfold filter_jobs
  by_cases h : jobs = []
  · subst h; simp
  · rw [if_neg h]
    refine congrArg (fun f => List.filterMap f jobs) (funext fun job => ?_)
    simp only [keyword_point, salary_point, location_point, criterion_points,
      strong_keyword_override, annotate_job, Bool.or_eq_true, decide_eq_true_eq,
      ge_iff_le]

/-! ## Claim C9: the filter only adds the two annotation fields -/

/-- C9 (confirmed). Every posting surviving `filter_jobs` is one of the
input postings with every field other than `filter_match_score` and
`filter_match_reasons` — in particular `status` and `id` — unchanged. -/
theorem filter_jobs_frame (F : JobFilter) (jobs : List Job) (resumeText : String)
    (j : Job) (hj : j ∈ filter_jobs F jobs resumeText) :
    ∃ j0, j0 ∈ jobs ∧
      j.id = j0.id ∧ j.title = j0.title ∧ j.company = j0.company ∧
      j.location = j0.location ∧ j.description = j0.description ∧
      j.salary = j0.salary ∧ j.url = j0.url ∧ j.source = j0.source ∧
      j.date_found = j0.date_found ∧ j.status = j0.status ∧
      j.matching_score = j0.matching_score := by
  unfold filter_jobs at hj
  by_cases h : jobs = []
  · subst h; simp at hj
  · rw [if_neg h, List.mem_filterMap] at hj
    obtain ⟨j0, hmem, heq⟩ := hj
    refine ⟨j0, hmem, ?_⟩
    simp only [ge_iff_le] at heq
    split at heq
    · injection heq with heq
      subst heq
      exact ⟨rfl, rfl, rfl, rfl, rfl, rfl, rfl, rfl, rfl, rfl, rfl⟩
    · exact absurd heq (by simp)

/-- A concrete posting meeting the salary and location criteria. -/
def witnessJob : Job := { location := some "New York, NY", salary := some "$80,000" }

/-- `witnessJob` as annotated by the filter (2 points: salary, location). -/
def witnessJobAnnotated : Job :=
  { witnessJob with
    filter_match_score := some 2,
    filter_match_reasons := some ["Salary meets minimum requirement", "Location match"] }

/-- Witness for `filter_jobs_frame`. -/
theorem filter_jobs_frame_witness :
    ∃ j0, j0 ∈ [witnessJob] ∧
      witnessJobAnnotated.id = j0.id ∧ witnessJobAnnotated.title = j0.title ∧
      witnessJobAnnotated.company = j0.company ∧
      witnessJobAnnotated.location = j0.location ∧
      witnessJobAnnotated.description = j0.description ∧
      witnessJobAnnotated.salary = j0.salary ∧ witnessJobAnnotated.url = j0.url ∧
      witnessJobAnnotated.source = j0.source ∧
      witnessJobAnnotated.date_found = j0.date_found ∧
      witnessJobAnnotated.status = j0.status ∧
      witnessJobAnnotated.matching_score = j0.matching_score :=
  filter_jobs_frame ⟨70000, "New York, NY"⟩ [witnessJob] "" witnessJobAnnotated (by decide)

/-! ## Rounding lemmas -/

theorem roundHalfEven_nonneg {x : ℚ} (h : 0 ≤ x) : 0 ≤ roundHalfEven x := by
  have hf : 0 ≤ ⌊x⌋ := Int.floor_nonneg.mpr h
  simp only [roundHalfEven]
  split_ifs <;> omega

theorem roundHalfEven_le {x : ℚ} {B : ℤ} (h : x ≤ B) : roundHalfEven x ≤ B := by
  have hfl : ⌊x⌋ ≤ B := by
    have := Int.floor_mono h
    simpa using this
  have hfx : (⌊x⌋ : ℚ) ≤ x := Int.floor_le x
  simp only [roundHalfEven]
  split_ifs with h1 h2 h3
  · exact hfl
  · have hlt : (⌊x⌋ : ℚ) < (B : ℚ) := by linarith
    have := Int.cast_lt.mp hlt
    omega
  · exact hfl
  · have h4 : 1/2 ≤ x - ⌊x⌋ := not_lt.mp h1
    have hlt : (⌊x⌋ : ℚ) < (B : ℚ) := by linarith
    have := Int.cast_lt.mp hlt
    omega

theorem pyRound2_zero : pyRound2 0 = 0 := by
  have h0 : ((0 : ℚ) * 100) = 0 := by norm_num
  simp only [pyRound2, roundHalfEven, h0]
  norm_num

theorem pyRound2_nonneg {x : ℚ} (h : 0 ≤ x) : 0 ≤ pyRound2 x := by
  have := roundHalfEven_nonneg (x := x * 100) (by positivity)
  unfold pyRound2
  have hc : (0 : ℚ) ≤ (roundHalfEven (x * 100) : ℚ) := by exact_mod_cast this
  positivity

theorem pyRound2_le_100 {x : ℚ} (h : x ≤ 100) : pyRound2 x ≤ 100 := by
  have h1 : x * 100 ≤ ((10000 : ℤ) : ℚ) := by push_cast; linarith
  have h2 := roundHalfEven_le h1
  have h3 : ((roundHalfEven (x * 100) : ℤ) : ℚ) ≤ 10000 := by exact_mod_cast h2
  unfold pyRound2
  linarith

theorem length_le_of_nodup_subset {l₁ l₂ : List String} (h : l₁.Nodup) (s : l₁ ⊆ l₂) :
    l₁.length ≤ l₂.length := by
  calc l₁.length = l₁.toFinset.card := (List.toFinset_card_of_nodup h).symm
    _ ≤ l₂.toFinset.card := Finset.card_le_card (fun x hx => by
        simp only [List.mem_toFinset] at hx ⊢; exact s hx)
    _ ≤ l₂.length := l₂.toFinset_card_le

/-- The percentage computed by `compare_skills` from a matching count and a
job skill list, as a single reusable bound argument. -/
theorem percentage_bounds (m : List String) (jobs : List String)
    (hn : m.Nodup) (hs : m ⊆ jobs) :
    0 ≤ pyRound2 (if jobs ≠ [] then ((m.length : ℚ) / (jobs.length : ℚ)) * 100 else 0) ∧
    pyRound2 (if jobs ≠ [] then ((m.length : ℚ) / (jobs.length : ℚ)) * 100 else 0) ≤ 100 := by
  constructor
  · apply pyRound2_nonneg
    split_ifs
    · positivity
    · exact le_refl 0
  · apply pyRound2_le_100
    split_ifs with hj
    · have hml : m.length ≤ jobs.length := length_le_of_nodup_subset hn hs
      have hpos : (0 : ℚ) < (jobs.length : ℚ) := by
        have : 0 < jobs.length := List.length_pos.mpr hj
        exact_mod_cast this
      have hdiv : (m.length : ℚ) / (jobs.length : ℚ) ≤ 1 := by
        rw [div_le_one hpos]
        exact_mod_cast hml
      calc ((m.length : ℚ) / (jobs.length : ℚ)) * 100 ≤ 1 * 100 :=
            mul_le_mul_of_nonneg_right hdiv (by norm_num)
        _ = 100 := by norm_num
    · norm_num

/-! ## Claim C1: the match percentage of compare_skills -/

/-- C1 (confirmed). For skill-extraction results satisfying the data-model
invariant (the résumé's `all_skills` deduplicated), `compare_skills` yields
`match_percentage = round2(100·|matching|/|J.all_skills|)`, always in
[0, 100] and 0 when `J.all_skills` is empty; each per-category
`match_percentage` is computed the same way over that category's
(de-duplicated) job skill set. -/
theorem compare_skills_match_percentage (R J : SkillResult)
    (hR : (R.all_skills.getD []).Nodup) :
    ((compare_skills R J).match_percentage =
      pyRound2 (if J.all_skills.getD [] ≠ [] then
        (((compare_skills R J).matching_skills.length : ℚ) /
          ((J.all_skills.getD []).length : ℚ)) * 100 else 0)) ∧
    (J.all_skills.getD [] = [] → (compare_skills R J).match_percentage = 0) ∧
    0 ≤ (compare_skills R J).match_percentage ∧
    (compare_skills R J).match_percentage ≤ 100 ∧
    (∀ cat cc, (cat, cc) ∈ (compare_skills R J).categories →
      (cc.match_percentage =
        pyRound2 (if List.dedup ((assocFind cat (J.skill_categories.getD [])).getD []) ≠ [] then
          ((cc.matching.length : ℚ) /
            ((List.dedup ((assocFind cat (J.skill_categories.getD [])).getD [])).length : ℚ)) * 100
          else 0)) ∧
      0 ≤ cc.match_percentage ∧ cc.match_percentage ≤ 100) := by
  have hmain : (compare_skills R J).match_percentage =
      pyRound2 (if J.all_skills.getD [] ≠ [] then
        (((compare_skills R J).matching_skills.length : ℚ) /
          ((J.all_skills.getD []).length : ℚ)) * 100 else 0) := rfl
  have hmnodup : ((compare_skills R J).matching_skills).Nodup := List.Nodup.filter _ hR
  have hmsub : (compare_skills R J).matching_skills ⊆ J.all_skills.getD [] := by
    intro x hx
    have := List.mem_filter.mp hx
    exact of_decide_eq_true this.2
  have hbounds := percentage_bounds _ _ hmnodup hmsub
  refine ⟨hmain, ?_, ?_, ?_, ?_⟩
  · intro hj
    rw [hmain, if_neg (by simp [hj])]
    exact pyRound2_zero
  · rw [hmain]; exact hbounds.1
  · rw [hmain]; exact hbounds.2
  · intro cat cc hmem
    have hmem2 := List.mem_map.mp hmem
    obtain ⟨category, hcatmem, hcateq⟩ := hmem2
    have hcat : category = cat := congrArg Prod.fst hcateq
    subst hcat
    have hcc : cc = ⟨(List.dedup ((assocFind category (R.skill_categories.getD [])).getD [])).filter
          (fun s => decide (s ∈ List.dedup ((assocFind category (J.skill_categories.getD [])).getD []))),
        (List.dedup ((assocFind category (J.skill_categories.getD [])).getD [])).filter
          (fun s => decide (s ∉ List.dedup ((assocFind category (R.skill_categories.getD [])).getD []))),
        pyRound2 (if List.dedup ((assocFind category (J.skill_categories.getD [])).getD []) ≠ [] then
          (((List.dedup ((assocFind category (R.skill_categories.getD [])).getD [])).filter
              (fun s => decide (s ∈ List.dedup ((assocFind category (J.skill_categories.getD [])).getD [])))).length : ℚ) /
            ((List.dedup ((assocFind category (J.skill_categories.getD [])).getD [])).length : ℚ) * 100
          else 0)⟩ := (congrArg Prod.snd hcateq).symm
    subst hcc
    have hcnodup : ((List.dedup ((assocFind category (R.skill_categories.getD [])).getD [])).filter
        (fun s => decide (s ∈ List.dedup ((assocFind category (J.skill_categories.getD [])).getD [])))).Nodup :=
      List.Nodup.filter _ (List.nodup_dedup _)
    have hcsub : ((List.dedup ((assocFind category (R.skill_categories.getD [])).getD [])).filter
        (fun s => decide (s ∈ List.dedup ((assocFind category (J.skill_categories.getD [])).getD [])))) ⊆
        List.dedup ((assocFind category (J.skill_categories.getD [])).getD []) := by
      intro x hx
      exact of_decide_eq_true (List.mem_filter.mp hx).2
    have hb := percentage_bounds _ _ hcnodup hcsub
    exact ⟨rfl, hb.1, hb.2⟩

/-- Witness for `compare_skills_match_percentage`. -/
theorem compare_skills_match_percentage_witness :
    0 ≤ (compare_skills ⟨none, some ["Python"], none⟩
          ⟨none, some ["Python", "Kubernetes"], none⟩).match_percentage ∧
    (compare_skills ⟨none, some ["Python"], none⟩
          ⟨none, some ["Python", "Kubernetes"], none⟩).match_percentage ≤ 100 :=
  ⟨(compare_skills_match_percentage _ _ (by decide)).2.2.1,
   (compare_skills_match_percentage _ _ (by decide)).2.2.2.1⟩

/-! ## Claim C10: empty text yields the bare empty dict -/

/-- C10 (confirmed). `extract_skills` on empty text returns the bare empty
dict — all three keys absent, not present-with-empty-values — and
`compare_skills` tolerates it only through its defaulting `.get` lookups:
the bare dict behaves exactly like a result with empty values, giving 0%
match against any résumé result. -/
theorem extract_skills_empty_text
    (wordTokenize : String → List String) (lemmatize : String → String)
    (stopWords : List String) (spacyResult : Option (List (String × List String)))
    (skill_patterns : List (String × List String)) :
    (extract_skills wordTokenize lemmatize stopWords spacyResult skill_patterns "").skill_categories
        = none ∧
    (extract_skills wordTokenize lemmatize stopWords spacyResult skill_patterns "").all_skills
        = none ∧
    (extract_skills wordTokenize lemmatize stopWords spacyResult skill_patterns "").skill_frequencies
        = none ∧
    (∀ R : SkillResult,
      (compare_skills R
          (extract_skills wordTokenize lemmatize stopWords spacyResult skill_patterns "")).match_percentage
        = 0 ∧
      (compare_skills R
          (extract_skills wordTokenize lemmatize stopWords spacyResult skill_patterns "")).matching_skills
        = [] ∧
      (compare_skills R
          (extract_skills wordTokenize lemmatize stopWords spacyResult skill_patterns "")).missing_skills
        = []) ∧
    (∀ S : SkillResult,
      compare_skills (extract_skills wordTokenize lemmatize stopWords spacyResult skill_patterns "") S
        = compare_skills ⟨some [], some [], some []⟩ S) := by
  refine ⟨rfl, rfl, rfl, ?_, fun S => rfl⟩
  intro R
  refine ⟨?_, ?_, rfl⟩
  · show pyRound2 (if ([] : List String) ≠ [] then _ else 0) = 0
    rw [if_neg (by simp)]
    exact pyRound2_zero
  · show (R.all_skills.getD []).filter (fun s => decide (s ∈ ([] : List String))) = []
    simp

/-! ## Claim C4: invariants of the extraction result -/

theorem flatten_snd_sublist (patterns : List (String × List String)) (pre : String) :
    ((extract_skills_with_patterns patterns pre).map Prod.snd).flatten.Sublist
      ((patterns.map Prod.snd).flatten.map format_skill_name) := by
  induction patterns with
  | nil => exact List.Sublist.refl _
  | cons cp rest ih =>
    simp only [extract_skills_with_patterns, List.filterMap_cons] at ih ⊢
    by_cases hcs : ((cp.2.filter (fun p => re_search_wb p pre)).map format_skill_name) = []
    · rw [if_pos hcs]
      simp only [List.map_cons, List.flatten_cons, List.map_append]
      exact ih.trans (List.sublist_append_right _ _)
    · rw [if_neg hcs]
      simp only [List.map_cons, List.flatten_cons, List.map_append]
      exact List.Sublist.append ((List.filter_sublist cp.2).map format_skill_name) ih

set_option maxRecDepth 10000 in
theorem default_names_nodup :
    (((default_skill_patterns.map Prod.snd).flatten).map format_skill_name).Nodup := by decide

set_option maxRecDepth 10000 in
/-- C4 (counterexample). With the spaCy augmentation pass active,
`all_skills` can contain duplicates: a term returned in both auxiliary
spaCy categories (here `"machine learning"` as both a multi-word noun chunk
and an ORG/PRODUCT entity, which the per-category `list(set(...))` cleanup
does not deduplicate across categories) appears twice. -/
theorem extract_skills_duplicate_all_skills :
    ¬ ((extract_skills (fun _ => ["python"]) (fun _ => "python") []
        (some [("technical_terms", ["machine learning"]),
               ("tools_and_technologies", ["machine learning"])])
        default_skill_patterns "x").all_skills.getD []).Nodup := by decide

/-- C4 (amended). Every skill in `all_skills` appears in at least one
category of `skill_categories` and every listed frequency is ≥ 0, for any
spaCy result; `all_skills` has no duplicates whenever the spaCy
augmentation pass is absent (`nlp is None`), the only case in which the
extractor controls the category contents. -/
theorem extract_skills_invariants
    (wordTokenize : String → List String) (lemmatize : String → String)
    (stopWords : List String) (spacyResult : Option (List (String × List String)))
    (text : String) :
    (∀ sk ∈ (extract_skills wordTokenize lemmatize stopWords spacyResult
        default_skill_patterns text).all_skills.getD [],
      ∃ cat cs, (cat, cs) ∈ (extract_skills wordTokenize lemmatize stopWords spacyResult
        default_skill_patterns text).skill_categories.getD [] ∧ sk ∈ cs) ∧
    (∀ p ∈ (extract_skills wordTokenize lemmatize stopWords spacyResult
        default_skill_patterns text).skill_frequencies.getD [], 0 ≤ p.2) ∧
    ((extract_skills wordTokenize lemmatize stopWords none
        default_skill_patterns text).all_skills.getD []).Nodup := by
  refine ⟨?_, fun p _ => Nat.zero_le _, ?_⟩
  · intro sk hsk
    by_cases htext : text = ""
    · subst htext
      exact absurd hsk (by simp [extract_skills])
    · simp only [extract_skills, if_neg htext, Option.getD_some] at hsk ⊢
      rw [List.mem_flatten] at hsk
      obtain ⟨l, hl, hskl⟩ := hsk
      rw [List.mem_map] at hl
      obtain ⟨cp, hcp, rfl⟩ := hl
      exact ⟨cp.1, cp.2, by simpa using hcp, hskl⟩
  · by_cases htext : text = ""
    · subst htext
      simp [extract_skills]
    · simp only [extract_skills, if_neg htext, Option.getD_some]
      exact List.Nodup.sublist (flatten_snd_sublist _ _) default_names_nodup

set_option maxRecDepth 10000 in
/-- Witness for `extract_skills_invariants`. -/
theorem extract_skills_invariants_witness :
    (∃ cat cs, (cat, cs) ∈ (extract_skills (fun _ => ["python"]) (fun _ => "python") [] none
        default_skill_patterns "x").skill_categories.getD [] ∧ "Python" ∈ cs) ∧
    ((extract_skills (fun _ => ["python"]) (fun _ => "python") [] none
        default_skill_patterns "x").all_skills.getD []).Nodup :=
  ⟨(extract_skills_invariants (fun _ => ["python"]) (fun _ => "python") [] none "x").1
      "Python" (by decide),
   (extract_skills_invariants (fun _ => ["python"]) (fun _ => "python") [] none "x").2.2⟩

/-! ## Claim C2: lemma stack — the preprocessed text and the regex engine -/

theorem joinWords_chars (l : List String)
    (h : ∀ w ∈ l, ∀ c ∈ w.data, isPunct c = false) :
    ∀ c ∈ (joinWords l).data, isPunct c = false := by
  induction l with
  | nil => intro c hc; exact absurd hc (by simp [joinWords])
  | cons w ws ih =>
    cases ws with
    | nil =>
      intro c hc
      exact h w (List.mem_cons_self _ _) c (by simpa [joinWords] using hc)
    | cons w2 ws2 =>
      intro c hc
      have hd : (joinWords (w :: w2 :: ws2)).data =
          w.data ++ (" ".data ++ (joinWords (w2 :: ws2)).data) := by
        show (w ++ " " ++ joinWords (w2 :: ws2)).data = _
        simp [String.data_append]
      rw [hd] at hc
      rcases List.mem_append.mp hc with h1 | h2
      · exact h w (List.mem_cons_self _ _) c h1
      · rcases List.mem_append.mp h2 with h3 | h4
        · have : c = ' ' := by simpa using h3
          subst this; decide
        · exact ih (fun v hv => h v (List.mem_cons_of_mem _ hv)) c h4

theorem preprocess_no_punct (wordTokenize : String → List String)
    (lemmatize : String → String) (stopWords : List String) (text : String)
    (hlem : ∀ s : String, ∀ c ∈ (lemmatize s).data, isPunct c = false) :
    ∀ c ∈ (preprocess_text wordTokenize lemmatize stopWords text).data, isPunct c = false := by
  unfold preprocess_text
  apply joinWords_chars
  generalize wordTokenize (pyLower text) = tokens
  induction tokens with
  | nil => intro w hw; exact absurd hw (List.not_mem_nil w)
  | cons tok toks ih =>
    intro w hw
    simp only [List.foldr_cons] at hw
    split at hw
    · rcases List.mem_cons.mp hw with h1 | h2
      · subst h1; exact hlem _
      · exact ih w h2
    · exact ih w hw

theorem occursWB_chars {pat s : List Char} (h : occursWB pat s) : ∀ c ∈ pat, c ∈ s := by
  obtain ⟨t, u, rfl, -, -⟩ := h
  intro c hc
  simp [hc]

theorem replaceDoubleBackslash_eq_self :
    ∀ cs : List Char, '\\' ∉ cs → replaceDoubleBackslash cs = cs := by
  intro cs
  induction cs with
  | nil => intro _; rfl
  | cons c rest ih =>
    intro h
    have hc : c ≠ '\\' := fun he => h (he ▸ List.mem_cons_self _ _)
    cases rest with
    | nil => rfl
    | cons d rest2 =>
      show replaceDoubleBackslash (c :: d :: rest2) = c :: d :: rest2
      rw [replaceDoubleBackslash, if_neg (fun hand => hc hand.1),
        ih (fun hm => h (List.mem_cons_of_mem _ hm))]

theorem compilePattern_eq_map_lit :
    ∀ cs : List Char, (∀ c ∈ cs, c ≠ '\\' ∧ c ≠ '.') → compilePattern cs = cs.map RTok.lit := by
  intro cs
  induction cs with
  | nil => intro _; rfl
  | cons c rest ih =>
    intro h
    obtain ⟨hc1, hc2⟩ := h c (List.mem_cons_self _ _)
    cases rest with
    | nil =>
      show compilePattern [c] = [RTok.lit c]
      rw [compilePattern, if_neg hc2]
    | cons d rest2 =>
      show compilePattern (c :: d :: rest2) = _
      rw [compilePattern, if_neg hc1, if_neg hc2,
        ih (fun x hx => h x (List.mem_cons_of_mem _ hx))]
      rfl

theorem escapePlus_eq_self : ∀ cs : List Char, '+' ∉ cs → escapePlus cs = cs := by
  intro cs
  induction cs with
  | nil => intro _; rfl
  | cons c rest ih =>
    intro h
    have hc : c ≠ '+' := fun he => h (he ▸ List.mem_cons_self _ _)
    show escapePlus (c :: rest) = c :: rest
    rw [escapePlus, if_neg hc, ih (fun hm => h (List.mem_cons_of_mem _ hm))]

theorem matchToks_lit_append (pat rest : List Char) :
    matchToks (pat.map RTok.lit) (pat ++ rest) = some (pat, rest) := by
  induction pat with
  | nil => rfl
  | cons c p ih => simp [matchToks, ih]

theorem matchToks_lit_inv :
    ∀ (pat s consumed after : List Char),
      matchToks (pat.map RTok.lit) s = some (consumed, after) →
      consumed = pat ∧ s = pat ++ after := by
  intro pat
  induction pat with
  | nil =>
    intro s consumed after h
    simp only [List.map_nil, matchToks, Option.some.injEq, Prod.mk.injEq] at h
    exact ⟨h.1.symm, h.2⟩
  | cons c p ih =>
    intro s consumed after h
    cases s with
    | nil =>
      rw [List.map_cons] at h
      exact Option.noConfusion
        (show (none : Option (List Char × List Char)) = some (consumed, after) from h)
    | cons x xs =>
      simp only [List.map_cons, matchToks] at h
      by_cases hx : x = c
      · rw [if_pos hx] at h
        cases hm : matchToks (p.map RTok.lit) xs with
        | none => rw [hm] at h; simp at h
        | some pr =>
          rw [hm, Option.map_some'] at h
          have h2 := Option.some.inj h
          obtain ⟨hp1, hs1⟩ := ih xs pr.1 pr.2 (by rw [hm])
          subst hx
          have hc1 : x :: pr.1 = consumed := congrArg Prod.fst h2
          have hc2 : pr.2 = after := congrArg Prod.snd h2
          constructor
          · rw [← hc1, hp1]
          · rw [List.cons_append, ← hc2, ← hs1]
      · rw [if_neg hx] at h
        simp at h

/-- The character preceding the position reached after consuming `t`, when
the character before `t` was `prev`. -/
def prevFor (t : List Char) (prev : Option Char) : Option Char :=
  t.getLast?.elim prev some

theorem prevFor_none (t : List Char) : prevFor t none = t.getLast? := by
  cases h : t.getLast? <;> simp [prevFor, h]

theorem prevFor_cons (a : Char) (t : List Char) (prev : Option Char) :
    prevFor (a :: t) prev = prevFor t (some a) := by
  cases t with
  | nil => rfl
  | cons b t2 =>
    cases hl : (b :: t2).getLast? with
    | none => exact absurd hl (by simp)
    | some c =>
      have : (a :: b :: t2).getLast? = some c := by
        rw [List.getLast?_cons_cons, hl]
      simp [prevFor, this, hl]

theorem matchHere_of_occurs (toks : List RTok) (pat u : List Char) (prev : Option Char)
    (htoks : toks = pat.map RTok.lit)
    (hstart : boundaryB prev ((pat ++ u).head?) = true)
    (hend : (match pat.getLast? with
       | some c => boundaryB (some c) u.head?
       | none => boundaryB prev u.head?) = true) :
    matchHere toks prev (pat ++ u) = true := by
  subst htoks
  unfold matchHere
  rw [matchToks_lit_append, hstart]
  simpa using hend

theorem rsearchAux_of_matchHere (toks : List RTok) :
    ∀ (t rest : List Char) (prev : Option Char),
      matchHere toks (prevFor t prev) rest = true →
      rsearchAux toks prev (t ++ rest) = true := by
  intro t
  induction t with
  | nil =>
    intro rest prev h
    cases rest with
    | nil => exact h
    | cons c r =>
      have h2 : matchHere toks prev (c :: r) = true := h
      simp [rsearchAux, h2]
  | cons a t2 ih =>
    intro rest prev h
    show rsearchAux toks prev (a :: (t2 ++ rest)) = true
    rw [rsearchAux]
    have := ih rest (some a) (by rw [← prevFor_cons]; exact h)
    rw [this, Bool.or_true]

theorem rcountAux_pos (pat : List Char) (lc : Char) (hlc : pat.getLast? = some lc) :
    ∀ (n : Nat) (s : List Char) (prev : Option Char), s.length ≤ n →
      (∃ t u, s = t ++ pat ++ u ∧
        boundaryB (prevFor t prev) ((pat ++ u).head?) = true ∧
        boundaryB (some lc) u.head? = true) →
      1 ≤ rcountAux (pat.map RTok.lit) n prev s := by
  have hpat : pat ≠ [] := by
    intro h0
    rw [h0] at hlc
    exact Option.noConfusion hlc
  intro n
  induction n with
  | zero =>
    intro s prev hlen hex
    obtain ⟨t, u, heq, -, -⟩ := hex
    have hs : s = [] := List.length_eq_zero.mp (Nat.le_zero.mp hlen)
    rw [hs] at heq
    have h1 := List.append_eq_nil.mp heq.symm
    exact absurd (List.append_eq_nil.mp h1.1).2 hpat
  | succ n ih =>
    intro s prev hlen hex
    obtain ⟨t, u, heq, hstart, hend⟩ := hex
    cases s with
    | nil =>
      have h1 := List.append_eq_nil.mp heq.symm
      exact absurd (List.append_eq_nil.mp h1.1).2 hpat
    | cons x xs =>
      have hlen2 : xs.length ≤ n := by
        simp only [List.length_cons] at hlen
        omega
      by_cases hb : boundaryB prev (some x) = true
      · cases hm : matchToks (pat.map RTok.lit) (x :: xs) with
        | some pr =>
          obtain ⟨consumed, after⟩ := pr
          obtain ⟨hc, hsplit⟩ := matchToks_lit_inv pat (x :: xs) consumed after hm
          subst hc
          by_cases he : boundaryB (some lc) after.head? = true
          · have hrw : rcountAux (consumed.map RTok.lit) (n + 1) prev (x :: xs) =
                1 + rcountAux (consumed.map RTok.lit) n (some lc) after := by
              rw [rcountAux, if_pos hb, hm]
              simp only [hlc]
              rw [if_pos he]
            rw [hrw]
            exact Nat.le_add_right 1 _
          · cases t with
            | nil =>
              exfalso
              apply he
              simp only [List.nil_append] at heq
              have hu : u = after := List.append_cancel_left (heq.symm.trans hsplit)
              rw [← hu]
              exact hend
            | cons a t2 =>
              simp only [List.cons_append] at heq
              injection heq with h1 h2
              subst h1
              have hrw : rcountAux (consumed.map RTok.lit) (n + 1) prev (x :: xs) =
                  rcountAux (consumed.map RTok.lit) n (some x) xs := by
                rw [rcountAux, if_pos hb, hm]
                simp only [hlc]
                rw [if_neg he]
              rw [hrw]
              exact ih xs (some x) hlen2
                ⟨t2, u, h2, by rw [← prevFor_cons]; exact hstart, hend⟩
        | none =>
          cases t with
          | nil =>
            exfalso
            simp only [List.nil_append] at heq
            have hmt := matchToks_lit_append pat u
            rw [← heq, hm] at hmt
            exact Option.noConfusion hmt
          | cons a t2 =>
            simp only [List.cons_append] at heq
            injection heq with h1 h2
            subst h1
            have hrw : rcountAux (pat.map RTok.lit) (n + 1) prev (x :: xs) =
                rcountAux (pat.map RTok.lit) n (some x) xs := by
              rw [rcountAux, if_pos hb, hm]
            rw [hrw]
            exact ih xs (some x) hlen2
              ⟨t2, u, h2, by rw [← prevFor_cons]; exact hstart, hend⟩
      · cases t with
        | nil =>
          exfalso
          apply hb
          simp only [List.nil_append] at heq
          have hh : (pat ++ u).head? = some x := by rw [← heq]; rfl
          have h0 : boundaryB (prevFor ([] : List Char) prev) ((pat ++ u).head?) = true := hstart
          rw [hh] at h0
          exact h0
        | cons a t2 =>
          simp only [List.cons_append] at heq
          injection heq with h1 h2
          subst h1
          have hrw : rcountAux (pat.map RTok.lit) (n + 1) prev (x :: xs) =
              rcountAux (pat.map RTok.lit) n (some x) xs := by
            rw [rcountAux, if_neg hb]
          rw [hrw]
          exact ih xs (some x) hlen2
            ⟨t2, u, h2, by rw [← prevFor_cons]; exact hstart, hend⟩

/-! ## Claim C2: lemma stack — through the extraction pipeline -/

theorem extract_patterns_mem (patterns : List (String × List String)) (pre : String)
    (cat : String) (pats : List String) (p : String)
    (hcp : (cat, pats) ∈ patterns) (hp : p ∈ pats) (hs : re_search_wb p pre = true) :
    ∃ cs, (cat, cs) ∈ extract_skills_with_patterns patterns pre ∧
      format_skill_name p ∈ cs := by
  induction patterns with
  | nil => exact absurd hcp (List.not_mem_nil _)
  | cons cp rest ih =>
    simp only [extract_skills_with_patterns, List.filterMap_cons] at ih ⊢
    rcases List.mem_cons.mp hcp with hhead | htail
    · have hmem : format_skill_name p ∈
          (pats.filter (fun q => re_search_wb q pre)).map format_skill_name :=
        List.mem_map_of_mem _ (List.mem_filter.mpr ⟨hp, hs⟩)
      have hne : ((pats.filter (fun q => re_search_wb q pre)).map format_skill_name) ≠ [] := by
        intro h0
        rw [h0] at hmem
        exact List.not_mem_nil _ hmem
      refine ⟨(pats.filter (fun q => re_search_wb q pre)).map format_skill_name, ?_, hmem⟩
      rw [← hhead]
      simp only [if_neg hne]
      exact List.mem_cons_self _ _
    · obtain ⟨cs, hcs, hmem⟩ := ih htail
      refine ⟨cs, ?_, hmem⟩
      by_cases hne : ((cp.2.filter (fun q => re_search_wb q pre)).map format_skill_name) = []
      · simp only [if_pos hne]
        exact hcs
      · simp only [if_neg hne]
        exact List.mem_cons_of_mem _ hcs

theorem extract_patterns_keys_sublist (patterns : List (String × List String)) (pre : String) :
    ((extract_skills_with_patterns patterns pre).map Prod.fst).Sublist
      (patterns.map Prod.fst) := by
  induction patterns with
  | nil => exact List.Sublist.refl _
  | cons cp rest ih =>
    simp only [extract_skills_with_patterns, List.filterMap_cons] at ih ⊢
    by_cases hne : ((cp.2.filter (fun q => re_search_wb q pre)).map format_skill_name) = []
    · simp only [if_pos hne, List.map_cons]
      exact ih.trans (List.sublist_cons_self _ _)
    · simp only [if_neg hne, List.map_cons]
      exact List.Sublist.cons₂ _ ih

theorem assocFind_eq_none_iff {α : Type} (k : String) (l : List (String × α)) :
    assocFind k l = none ↔ k ∉ l.map Prod.fst := by
  induction l with
  | nil => simp [assocFind]
  | cons kv rest ih =>
    by_cases h : kv.1 = k
    · simp [assocFind, h]
    · have hne : ¬ k = kv.1 := fun he => h he.symm
      simp only [assocFind, if_neg h, List.map_cons, List.mem_cons]
      rw [ih]
      simp [hne]

theorem assocFind_some_of_mem {α : Type} {k : String} {v : α} :
    ∀ {l : List (String × α)}, (l.map Prod.fst).Nodup → (k, v) ∈ l →
      assocFind k l = some v := by
  intro l
  induction l with
  | nil => intro _ hm; exact absurd hm (List.not_mem_nil _)
  | cons kv rest ih =>
    intro hnd hm
    rcases List.mem_cons.mp hm with hh | ht
    · rw [← hh]
      simp [assocFind]
    · have hk2 : kv.1 ≠ k := by
        intro he
        have hkm : k ∈ rest.map Prod.fst := by
          exact List.mem_map_of_mem Prod.fst ht
        rw [List.map_cons, List.nodup_cons] at hnd
        exact hnd.1 (he ▸ hkm)
      simp only [assocFind, if_neg hk2]
      exact ih (by rw [List.map_cons, List.nodup_cons] at hnd; exact hnd.2) ht

theorem keys_setAssoc {α : Type} (l : List (String × α)) (k : String) (v : α) :
    (setAssoc l k v).map Prod.fst = l.map Prod.fst := by
  induction l with
  | nil => rfl
  | cons kv rest ih =>
    by_cases h : kv.1 = k
    · simp only [setAssoc, List.map_cons, if_pos h] at ih ⊢
      rw [h]
      exact congrArg _ ih
    · simp only [setAssoc, List.map_cons, if_neg h] at ih ⊢
      exact congrArg _ ih

theorem mem_setAssoc_of_ne {α : Type} {l : List (String × α)} {cat : String} {cs : α}
    (k : String) (v : α) (h : (cat, cs) ∈ l) (hne : cat ≠ k) :
    (cat, cs) ∈ setAssoc l k v := by
  have := List.mem_map_of_mem (fun kv : String × α => if kv.1 = k then (k, v) else kv) h
  simpa [setAssoc, if_neg hne] using this

theorem mem_setAssoc_self {α : Type} {l : List (String × α)} {k : String} (v : α)
    (h : k ∈ l.map Prod.fst) : (k, v) ∈ setAssoc l k v := by
  obtain ⟨kv, hkv, hfst⟩ := List.mem_map.mp h
  have := List.mem_map_of_mem (fun kv : String × α => if kv.1 = k then (k, v) else kv) hkv
  simpa [setAssoc, if_pos hfst] using this

theorem merge_preserves (spacySkills : List (String × List String)) :
    ∀ (skills : List (String × List String)) (cat : String) (cs : List String) (x : String),
      (skills.map Prod.fst).Nodup → (cat, cs) ∈ skills → x ∈ cs →
      ∃ cs2, (cat, cs2) ∈ merge_spacy_skills skills spacySkills ∧ x ∈ cs2 := by
  induction spacySkills with
  | nil => intro skills cat cs x _ hm hx; exact ⟨cs, hm, hx⟩
  | cons e rest ih =>
    intro skills cat cs x hnd hm hx
    show ∃ cs2, (cat, cs2) ∈ merge_spacy_skills
      (match assocFind e.1 skills with
       | some existing => setAssoc skills e.1 (List.dedup (existing ++ e.2))
       | none => skills ++ [e]) rest ∧ x ∈ cs2
    cases hf : assocFind e.1 skills with
    | some existing =>
      have hnd2 : ((setAssoc skills e.1 (List.dedup (existing ++ e.2))).map Prod.fst).Nodup := by
        rw [keys_setAssoc]
        exact hnd
      by_cases hc : cat = e.1
      · subst hc
        have hcs : existing = cs := by
          have := assocFind_some_of_mem hnd hm
          rw [hf] at this
          exact Option.some.inj this
        refine ih _ e.1 _ x hnd2 (mem_setAssoc_self _ ?_) ?_
        · exact List.mem_map.mpr ⟨(e.1, cs), hm, rfl⟩
        · exact List.mem_dedup.mpr (List.mem_append_left _ (hcs ▸ hx))
      · exact ih _ cat cs x hnd2 (mem_setAssoc_of_ne _ _ hm hc) hx
    | none =>
      have hnotin : e.1 ∉ skills.map Prod.fst := (assocFind_eq_none_iff _ _).mp hf
      have hnd2 : (((skills ++ [e]).map Prod.fst)).Nodup := by
        rw [List.map_append]
        simp [List.nodup_append, hnd, hnotin]
      exact ih _ cat cs x hnd2 (List.mem_append_left _ hm) hx

theorem assocFind_map_self {x : String} (f : String → Nat) :
    ∀ {l : List String}, x ∈ l →
      assocFind x (l.map (fun sk => (sk, f sk))) = some (f x) := by
  intro l
  induction l with
  | nil => intro hx; exact absurd hx (List.not_mem_nil _)
  | cons y ys ih =>
    intro hx
    by_cases h : y = x
    · subst h
      simp [assocFind]
    · rcases List.mem_cons.mp hx with h1 | h2
      · exact absurd h1.symm h
      · simp only [List.map_cons, assocFind, if_neg h]
        exact ih h2

set_option maxRecDepth 10000 in
theorem taxonomy_pattern_facts :
    ∀ cp ∈ default_skill_patterns, ∀ p ∈ cp.2,
      (p.data.any isPunct = true) ∨
      (pyLower (format_skill_name p) = p ∧ p.data ≠ []) := by decide

theorem re_search_wb_of_occurs (p : String) (s : String)
    (hlit : ∀ c ∈ p.data, c ≠ '\\' ∧ c ≠ '.')
    (hocc : occursWB p.data s.data) :
    re_search_wb p s = true := by
  obtain ⟨t, u, heq, hstart, hend⟩ := hocc
  unfold re_search_wb
  have hnb : '\\' ∉ p.data := fun hm => (hlit _ hm).1 rfl
  rw [replaceDoubleBackslash_eq_self _ hnb, compilePattern_eq_map_lit _ hlit, heq,
    List.append_assoc]
  apply rsearchAux_of_matchHere
  apply matchHere_of_occurs _ p.data u _ rfl
  · rw [prevFor_none]
    exact hstart
  · cases hgl : p.data.getLast? with
    | some c =>
      simp only [hgl] at hend ⊢
      exact hend
    | none =>
      simp only [hgl] at hend ⊢
      rw [prevFor_none]
      exact hend

/-! ## Claim C2: pattern completeness of extract_skills -/

/-- C2 (confirmed). For every pattern of the loaded (default) taxonomy that
occurs with word boundaries in the preprocessed text of a non-empty input,
`extract_skills` lists the pattern's canonical display name in `all_skills`
and maps it to a frequency of at least 1 — whatever the optional spaCy pass
returns.  The lemmatizer hypothesis records the environment assumption that
NLTK's lemmatizer never introduces punctuation characters (its inputs here
are punctuation-stripped tokens). -/
theorem extract_skills_pattern_complete
    (wordTokenize : String → List String) (lemmatize : String → String)
    (stopWords : List String) (spacyResult : Option (List (String × List String)))
    (hlem : ∀ s : String, ∀ c ∈ (lemmatize s).data, isPunct c = false)
    (text : String) (htext : text ≠ "")
    (cat : String) (pats : List String) (hcat : (cat, pats) ∈ default_skill_patterns)
    (p : String) (hp : p ∈ pats)
    (hocc : occursWB p.data (preprocess_text wordTokenize lemmatize stopWords text).data) :
    format_skill_name p ∈ (extract_skills wordTokenize lemmatize stopWords spacyResult
        default_skill_patterns text).all_skills.getD [] ∧
    ∃ n, assocFind (format_skill_name p)
        ((extract_skills wordTokenize lemmatize stopWords spacyResult
          default_skill_patterns text).skill_frequencies.getD []) = some n ∧ 1 ≤ n := by
  have hpre := preprocess_no_punct wordTokenize lemmatize stopWords text hlem
  have hpchars : ∀ c ∈ p.data, isPunct c = false :=
    fun c hc => hpre c (occursWB_chars hocc c hc)
  have hnotany : ¬ p.data.any isPunct = true := by
    intro h
    obtain ⟨c, hc, hpc⟩ := List.any_eq_true.mp h
    rw [hpchars c hc] at hpc
    exact Bool.false_ne_true hpc
  obtain ⟨hlower, hpd⟩ := (taxonomy_pattern_facts _ hcat p hp).resolve_left hnotany
  have hlit : ∀ c ∈ p.data, c ≠ '\\' ∧ c ≠ '.' := by
    intro c hc
    constructor
    · intro he; subst he; exact absurd (hpchars _ hc) (by decide)
    · intro he; subst he; exact absurd (hpchars _ hc) (by decide)
  have hplus : '+' ∉ p.data := fun hm => absurd (hpchars _ hm) (by decide)
  have hsearch : re_search_wb p (preprocess_text wordTokenize lemmatize stopWords text) = true :=
    re_search_wb_of_occurs p _ hlit hocc
  obtain ⟨cs, hcs, hmemcs⟩ :=
    extract_patterns_mem default_skill_patterns _ cat pats p hcat hp hsearch
  have hkeys : ((extract_skills_with_patterns default_skill_patterns
      (preprocess_text wordTokenize lemmatize stopWords text)).map Prod.fst).Nodup :=
    List.Nodup.sublist (extract_patterns_keys_sublist _ _) (by decide)
  obtain ⟨lc, hlc⟩ : ∃ lc, p.data.getLast? = some lc := by
    cases hgl : p.data.getLast? with
    | none => exact absurd (List.getLast?_eq_none_iff.mp hgl) hpd
    | some c => exact ⟨c, rfl⟩
  have hfreq : 1 ≤ skill_frequency (format_skill_name p)
      (preprocess_text wordTokenize lemmatize stopWords text) := by
    unfold skill_frequency
    rw [show (pyLower (format_skill_name p)).data = p.data from congrArg String.data hlower]
    rw [escapePlus_eq_self _ hplus, compilePattern_eq_map_lit _ hlit]
    obtain ⟨t, u, heq, hstart, hend⟩ := hocc
    apply rcountAux_pos p.data lc hlc _ _ none (le_refl _)
    refine ⟨t, u, heq, ?_, ?_⟩
    · rw [prevFor_none]
      exact hstart
    · simp only [hlc] at hend
      exact hend
  cases spacyResult with
  | none =>
    constructor
    · simp only [extract_skills, if_neg htext, Option.getD_some]
      exact List.mem_flatten.mpr ⟨cs, List.mem_map_of_mem Prod.snd hcs, hmemcs⟩
    · refine ⟨skill_frequency (format_skill_name p)
        (preprocess_text wordTokenize lemmatize stopWords text), ?_, hfreq⟩
      simp only [extract_skills, if_neg htext, Option.getD_some, calculate_skill_frequencies]
      exact assocFind_map_self _
        (List.mem_flatten.mpr ⟨cs, List.mem_map_of_mem Prod.snd hcs, hmemcs⟩)
  | some sp =>
    obtain ⟨cs2, hcs2, hmem2⟩ :=
      merge_preserves sp _ cat cs (format_skill_name p) hkeys hcs hmemcs
    constructor
    · simp only [extract_skills, if_neg htext, Option.getD_some]
      exact List.mem_flatten.mpr ⟨cs2, List.mem_map_of_mem Prod.snd hcs2, hmem2⟩
    · refine ⟨skill_frequency (format_skill_name p)
        (preprocess_text wordTokenize lemmatize stopWords text), ?_, hfreq⟩
      simp only [extract_skills, if_neg htext, Option.getD_some, calculate_skill_frequencies]
      exact assocFind_map_self _
        (List.mem_flatten.mpr ⟨cs2, List.mem_map_of_mem Prod.snd hcs2, hmem2⟩)

set_option maxRecDepth 10000 in
/-- Witness for `extract_skills_pattern_complete`. -/
theorem extract_skills_pattern_complete_witness :
    "Python" ∈ (extract_skills (fun _ => ["python"]) (fun _ => "python") [] none
        default_skill_patterns "x").all_skills.getD [] ∧
    ∃ n, assocFind "Python" ((extract_skills (fun _ => ["python"]) (fun _ => "python") [] none
        default_skill_patterns "x").skill_frequencies.getD []) = some n ∧ 1 ≤ n :=
  extract_skills_pattern_complete (fun _ => ["python"]) (fun _ => "python") [] none
    (fun _ => (by decide : ∀ c ∈ "python".data, isPunct c = false))
    "x" (by decide)
    "programming_languages" _ (List.mem_cons_self _ _)
    "python" (by decide)
    ⟨[], [], by decide, by decide, by decide⟩

end JobApp
